import Mathlib

/-!
Verification development for the crypto anomaly detection engine core
(block ingestion, transaction pattern analysis, liquidity tracking).

The repository ships only the unit-test suite for the analysis core
(`src/tests/unit/test_chain_analysis.py`); the implementation modules
`src/chain_analysis/blockchain_listener.py`,
`src/chain_analysis/transaction_analyzer.py` and
`src/chain_analysis/liquidity_tracker.py` that the tests import are not
present.  Every operation below is therefore modelled from the design
specification, faithful to its words, and the claims are settled against
these models.  Float arithmetic is modelled by exact rationals.
-/

namespace CADE

/-- Modelled from the spec: a token-balance entry of `TransactionMeta`
(`{account_index, ui_amount: non-negative float}`), as seen in raw ledger
payloads under `preTokenBalances` / `postTokenBalances`. -/
structure TokenBal where
  accountIndex : Option Nat
  uiAmount : ℚ
deriving DecidableEq

/-- Modelled from the spec: an instruction, referencing the ordered list of
account identifiers it touches. -/
structure Instr where
  accounts : List String
deriving DecidableEq

/-- Modelled from the spec: an `InnerInstructionGroup`, a sequence of
instructions. -/
structure InnerGroup where
  instructions : List Instr
deriving DecidableEq

/-- Modelled from the spec: `TransactionMeta` as it appears in raw,
duck-typed ledger payloads.  Every field may be absent, which the analyzer
treats as "no signal" rather than as an error. -/
structure Meta where
  fee : Option Int
  preBalances : Option (List Int)
  postBalances : Option (List Int)
  innerInstructions : Option (List InnerGroup)
  preTokenBalances : Option (List TokenBal)
  postTokenBalances : Option (List TokenBal)
deriving DecidableEq

/-- Modelled from the spec: a raw transaction record.  Fields may be
missing (malformed input never raises downstream). -/
structure Tx where
  signature : Option String
  accountKeys : Option (List String)
  meta : Option Meta
deriving DecidableEq

/-- Modelled from the spec: `PoolState` with positive reserves and pool
token supply (positivity is validated by the liquidity-impact operation). -/
structure PoolState where
  mint : String
  token_a_reserve : ℚ
  token_b_reserve : ℚ
  pool_token_supply : ℚ
deriving DecidableEq

/-- Modelled from the spec: the error raised by the Liquidity Tracker on a
non-positive reserve or supply. -/
inductive LiquidityError where
  | invalidPoolState
deriving DecidableEq

/-- Modelled from the spec: the unclamped-then-clamped liquidity impact of
injecting `trade_amount` into `token_a_reserve` of a constant-product pool:
the fractional change of the effective price `b / a`, normalized to the
interval `[0, 1]`. -/
def impactValue (trade_amount : ℚ) (pool : PoolState) : ℚ :=
  min 1 (max 0 (1 - (pool.token_a_reserve / (pool.token_a_reserve + trade_amount)) ^ 2))

/-- Modelled from the spec: `calculate_liquidity_impact(trade_amount, pool_state)`
(missing from src; only the tests reference it).  Fails with
`InvalidPoolStateError` if any reserve or the supply is non-positive,
otherwise returns the clamped fractional price impact. -/
def calculate_liquidity_impact (trade_amount : ℚ) (pool : PoolState) :
    Except LiquidityError ℚ :=
  if pool.token_a_reserve ≤ 0 ∨ pool.token_b_reserve ≤ 0 ∨ pool.pool_token_supply ≤ 0 then
    .error .invalidPoolState
  else
    .ok (impactValue trade_amount pool)

/-- Modelled from the spec: derivation of ephemeral `LiquidityEvent`
pre/post amount pairs from a transaction record's positionally aligned
`preTokenBalances` / `postTokenBalances` entries. -/
def extractEvents (tx : Tx) : List (ℚ × ℚ) :=
  match tx.meta with
  | none => []
  | some m =>
      ((m.preTokenBalances.getD []).zip (m.postTokenBalances.getD [])).map
        (fun pq => (pq.1.uiAmount, pq.2.uiAmount))

/-- Modelled from the spec: `detect_liquidity_removal(events, threshold)`
(missing from src; only the tests reference it).  Events are
transaction-shaped records; each contributes its positionally aligned
pre/post token-balance pairs.  For each pair with `pre ≠ 0` the fractional
drop `(pre - post) / pre` is computed (`pre == 0` pairs are skipped, so no
division by zero can occur); the result is true when a single drop or the
aggregate drop over the batch exceeds the threshold. -/
def detect_liquidity_removal (events : List Tx) (threshold : ℚ) : Bool :=
  let evs := events.flatMap extractEvents
  let single := evs.any (fun e => decide (e.1 ≠ 0) && decide (threshold < (e.1 - e.2) / e.1))
  let eligible := evs.filter (fun e => decide (e.1 ≠ 0))
  let totPre := (eligible.map Prod.fst).sum
  let totPost := (eligible.map Prod.snd).sum
  let aggregate := decide (totPre ≠ 0) && decide (threshold < (totPre - totPost) / totPre)
  single || aggregate

/-- Spec-side predicate, stated from the claim's words: some single event
pair with nonzero pre-amount has fractional drop exceeding the threshold. -/
def SingleDropExceeds (evs : List (ℚ × ℚ)) (threshold : ℚ) : Prop :=
  ∃ e ∈ evs, e.1 ≠ 0 ∧ threshold < (e.1 - e.2) / e.1

/-- Spec-side predicate, stated from the claim's words: the aggregate drop
across all (non-skipped) event pairs in the batch exceeds the threshold. -/
def AggregateDropExceeds (evs : List (ℚ × ℚ)) (threshold : ℚ) : Prop :=
  let eligible := evs.filter (fun e => decide (e.1 ≠ 0))
  let totPre := (eligible.map Prod.fst).sum
  let totPost := (eligible.map Prod.snd).sum
  totPre ≠ 0 ∧ threshold < (totPre - totPost) / totPre

/-- A liquidity-removal event record as in the test suite: full
transaction shape with a 100% drop from 1000 to 0. -/
def removalEv1 : Tx :=
  ⟨some "5KtPn1...", none,
    some ⟨none, none, none, none, some [⟨none, 1000⟩], some [⟨none, 0⟩]⟩⟩

/-- A liquidity-removal event record as in the test suite: full
transaction shape with a 100% drop from 2000 to 0. -/
def removalEv2 : Tx :=
  ⟨some "6LuQm2...", none,
    some ⟨none, none, none, none, some [⟨none, 2000⟩], some [⟨none, 0⟩]⟩⟩

/-- Modelled from the spec: the directed account-flow edges of a
transaction, rebuilt per transaction from its inner instructions; each
instruction's touched accounts form edges in declaration order
(`{accounts: [A,B]}` contributes the edge `A → B`). -/
def innerEdges (tx : Tx) : List (String × String) :=
  match tx.meta with
  | none => []
  | some m =>
      (m.innerInstructions.getD []).flatMap
        (fun g => g.instructions.flatMap (fun i => i.accounts.zip i.accounts.tail))

/-- All endpoints of the edges of a transaction-local account-flow graph. -/
def nodesOf (edges : List (String × String)) : List String :=
  edges.flatMap (fun e => [e.1, e.2])

/-- Bounded reachability along directed edges: `reachN edges n x y` holds
when some walk of at most `n` edges leads from `x` to `y`. -/
def reachN (edges : List (String × String)) : Nat → String → String → Bool
  | 0, x, y => x == y
  | n + 1, x, y => x == y || edges.any (fun e => e.1 == x && reachN edges n e.2 y)

/-- Reachability decided with fuel equal to the number of graph node
occurrences, which suffices because simple walks never revisit a node. -/
def reachB (edges : List (String × String)) (x y : String) : Bool :=
  reachN edges (nodesOf edges).length x y

/-- Modelled from the spec: the cycle detector of the Transaction
Analyzer, run over the transaction-local account-flow graph; it reports a
cycle of length at least two exactly when some edge between two distinct
accounts can be closed back. -/
def hasCycle (edges : List (String × String)) : Bool :=
  edges.any (fun e => decide (e.1 ≠ e.2) && reachB edges e.2 e.1)

/-- One step along a directed edge of the account-flow graph. -/
def EdgeStep (edges : List (String × String)) (x y : String) : Prop :=
  (x, y) ∈ edges

/-- Unbounded reachability, stated through explicit walks: some nonempty
vertex list that is chained by edges leads from `x` to `y`. -/
def Reaches (edges : List (String × String)) (x y : String) : Prop :=
  ∃ p : List String, List.Chain' (EdgeStep edges) p ∧ p.head? = some x ∧
    p.getLast? = some y

/-- The transaction-local graph contains a cycle of length at least two: a
closed chain `a :: l ++ [a]` on pairwise distinct vertices `a :: l` with
`l` nonempty. -/
def HasCycleGe2 (edges : List (String × String)) : Prop :=
  ∃ (a : String) (l : List String), l ≠ [] ∧ (a :: l).Nodup ∧
    List.Chain' (EdgeStep edges) (a :: (l ++ [a]))

/-- Modelled from the spec: the analyzer configuration surface (window
size and repetition-count threshold for wash trading, signal weights, and
the cycle-detection enable flag); all externally supplied. -/
structure AnalyzerConfig where
  washWindow : Nat
  washCount : Nat
  washWeight : ℚ
  cycleWeight : ℚ
  cycleEnabled : Bool

/-- Modelled from the spec: `AnalysisResult`, a risk score in `[0, 1]`
together with the set of detected pattern labels. -/
structure AnalysisResult where
  risk_score : ℚ
  detected_patterns : List String
deriving DecidableEq

/-- Number of occurrences of a structurally identical transaction among
the current transaction and the rolling window of recent transactions. -/
def washOccurrences (window : List Tx) (tx : Tx) : Nat :=
  (tx :: window).countP (fun t => decide (t = tx))

/-- Modelled from the spec: `analyze_transaction(tx)` of the Transaction
Analyzer (missing from src; only the tests reference it).  It combines a
wash-trading repetition signal over the rolling window with the
transaction-local cycle signal through a weighted combination clamped to
`[0, 1]`, never fails on malformed input (missing fields yield no signal),
and returns the updated bounded rolling window alongside the result. -/
def analyze_transaction (cfg : AnalyzerConfig) (window : List Tx) (tx : Tx) :
    AnalysisResult × List Tx :=
  let occ := washOccurrences window tx
  let washFlag := decide (cfg.washCount < occ)
  let washSignal : ℚ := min 1 ((occ : ℚ) / ((cfg.washCount : ℚ) + 1))
  let cycFlag := cfg.cycleEnabled && hasCycle (innerEdges tx)
  let cycSignal : ℚ := if cycFlag then 1 else 0
  let risk := min 1 (max 0 (cfg.washWeight * washSignal + cfg.cycleWeight * cycSignal))
  let patterns :=
    (if washFlag then ["wash-trading"] else []) ++ (if cycFlag then ["cyclic"] else [])
  (⟨risk, patterns⟩, (tx :: window).take cfg.washWindow)

/-- The rolling window after analyzing the same transaction `n` times in a
row, starting from an empty window. -/
def windowIter (cfg : AnalyzerConfig) (tx : Tx) : Nat → List Tx
  | 0 => []
  | n + 1 => (analyze_transaction cfg (windowIter cfg tx n) tx).2

/-- The cyclic transaction of the unit test: inner-instruction accounts
forming the edges `A → B`, `B → C`, `C → A`. -/
def cycleTx : Tx :=
  ⟨none, none,
    some ⟨none, none, none,
      some [⟨[⟨["A", "B"]⟩, ⟨["B", "C"]⟩, ⟨["C", "A"]⟩]⟩], none, none⟩⟩

/-- A transaction whose inner-instruction accounts form only the edges
`A → B` and `B → C`, with no closure. -/
def chainTx : Tx :=
  ⟨none, none,
    some ⟨none, none, none, some [⟨[⟨["A", "B"]⟩, ⟨["B", "C"]⟩]⟩], none, none⟩⟩

/-- Modelled from the spec: the transient ingestion error taxonomy of the
Block Ingestor (ledger fetch failed, or malformed payload missing the
transactions field). -/
inductive IngestionError where
  | clientError
  | malformedBlock
deriving DecidableEq

/-- Modelled from the spec: a raw block as supplied by the Ledger Client;
loosely shaped, so every field may be missing. -/
structure RawBlock where
  blockHeight : Option Nat
  transactions : Option (List Tx)
  blockTime : Option Int
deriving DecidableEq

/-- Modelled from the spec: the internal Block record constructed by the
Block Ingestor from raw ledger data. -/
structure Block where
  block_height : Nat
  transactions : List Tx
  block_time : Option Int
deriving DecidableEq

/-- Modelled from the spec: the Block Ingestor's state: the last accepted
height, the blocks already constructed (keyed by height, consulted to
avoid re-fetching), and the log of heights fetched from the Ledger
Client (its length counts the fetches performed). -/
structure ListenerState where
  lastHeight : Option Nat
  cache : List (Nat × Block)
  fetches : List Nat
deriving DecidableEq

/-- A height is a duplicate when it does not exceed the last accepted
height. -/
def isDuplicateHeight (st : ListenerState) (h : Nat) : Bool :=
  match st.lastHeight with
  | none => false
  | some lh => decide (h ≤ lh)

/-- Modelled from the spec: `process_new_block(height)` of the Block
Ingestor (missing from src; only the tests reference it).  An already
constructed height is returned from the cache without a second fetch; a
height at most the last accepted one is discarded as a duplicate (`none`)
rather than reprocessed; otherwise the block is fetched, and the call
fails with `IngestionError` when the ledger client errors or the raw block
misses its transactions field, else constructs the Block record with
`block_height = height`, the raw transaction list and the raw timestamp,
and advances the last accepted height. -/
def process_new_block (client : Nat → Except String RawBlock)
    (st : ListenerState) (h : Nat) :
    Except IngestionError (Option Block) × ListenerState :=
  match st.cache.lookup h with
  | some b => (.ok (some b), st)
  | none =>
    if isDuplicateHeight st h then (.ok none, st)
    else
      match client h with
      | .error _ => (.error .clientError, ⟨st.lastHeight, st.cache, h :: st.fetches⟩)
      | .ok raw =>
        match raw.transactions with
        | none => (.error .malformedBlock, ⟨st.lastHeight, st.cache, h :: st.fetches⟩)
        | some txs =>
          let b : Block := ⟨h, txs, raw.blockTime⟩
          (.ok (some b), ⟨some h, (h, b) :: st.cache, h :: st.fetches⟩)

/-- Modelled from the spec: internal fee/balance-delta consistency of a
mempool transaction: `meta.fee` present, pre/post balance arrays present
and of equal length, and the sum of balance changes across accounts equal
to the declared fee within the configured tolerance. -/
def balanceConsistent (tol : ℚ) (tx : Tx) : Bool :=
  match tx.meta with
  | none => false
  | some m =>
    match m.fee with
    | none => false
    | some fee =>
      match m.preBalances with
      | none => false
      | some pre =>
        match m.postBalances with
        | none => false
        | some post =>
          decide (pre.length = post.length) &&
            decide (|((pre.sum : ℚ) - (post.sum : ℚ)) - (fee : ℚ)| ≤ tol)

/-- Modelled from the spec: `filter_mempool_transactions(transactions)` of
the Block Ingestor (missing from src; only the tests reference it).
Retains exactly the fee/balance-delta consistent transactions; transactions
with missing `meta.fee` or mismatched balance arrays are dropped, and the
function is total (never raises). -/
def filter_mempool_transactions (tol : ℚ) (txs : List Tx) : List Tx :=
  txs.filter (balanceConsistent tol)

/-- Spec-side predicate, stated from the claim's words: the transaction's
sum of balance changes across accounts equals the declared fee within the
tolerance, with all required fields present and aligned. -/
def FeeConsistent (tol : ℚ) (tx : Tx) : Prop :=
  ∃ (m : Meta) (fee : Int) (pre post : List Int),
    tx.meta = some m ∧ m.fee = some fee ∧ m.preBalances = some pre ∧
      m.postBalances = some post ∧ pre.length = post.length ∧
      |((pre.sum : ℚ) - (post.sum : ℚ)) - (fee : ℚ)| ≤ tol

/-- The first mempool transaction of the unit test. -/
def mempoolTx1 : Tx :=
  ⟨some "5KtPn1...", none,
    some ⟨some 5000, some [1000000, 2000000], some [990000, 2010000], none, none, none⟩⟩

/-- The second mempool transaction of the unit test. -/
def mempoolTx2 : Tx :=
  ⟨some "6LuQm2...", none,
    some ⟨some 5000, some [500000, 1000000], some [495000, 1005000], none, none, none⟩⟩

/-- The transaction inside the unit test's mock block. -/
def testBlockTx : Tx := ⟨some "5KtPn1...", some ["Address1", "Address2"], none⟩

/-- The raw block returned by the unit test's mocked ledger client. -/
def testRawBlock : RawBlock := ⟨some 12345, some [testBlockTx], some 1678901234⟩

/-- A ledger client that always returns the unit test's mock block. -/
def testClient : Nat → Except String RawBlock := fun _ => .ok testRawBlock

/-- The ingestor state before any block has been accepted. -/
def initialState : ListenerState := ⟨none, [], []⟩

/-- The Block record the ingestor constructs from the unit test's mock
block at height 12345. -/
def testBlock : Block := ⟨12345, [testBlockTx], some 1678901234⟩

/-- The pool state used by the unit test of `calculate_liquidity_impact`. -/
def testPool : PoolState := ⟨"PoolTokenMint123", 1000000, 1000000, 2000000⟩

/-- C1: for every list of liquidity events and every threshold,
`detect_liquidity_removal` returns true if and only if some single event's
fractional drop `(pre - post) / pre` exceeds the threshold or the aggregate
drop across all events in the batch exceeds the threshold; events with
`pre == 0` are skipped (and hence never cause a division). -/
theorem detect_liquidity_removal_iff (events : List Tx) (threshold : ℚ) :
    detect_liquidity_removal events threshold = true ↔
      SingleDropExceeds (events.flatMap extractEvents) threshold ∨
        AggregateDropExceeds (events.flatMap extractEvents) threshold := by
  simp only [detect_liquidity_removal, SingleDropExceeds, AggregateDropExceeds,
    Bool.or_eq_true, List.any_eq_true, Bool.and_eq_true, decide_eq_true_eq]

/-- C10: `detect_liquidity_removal` accepts events shaped as full
transaction records carrying `meta.preTokenBalances` and
`meta.postTokenBalances` lists of entries with a `uiAmount` field, deriving
each event's pre/post amounts from positionally aligned entries, and
returns a boolean for the test suite's list of such records. -/
theorem removal_accepts_transaction_records :
    (∀ (tx : Tx) (m : Meta) (pres posts : List TokenBal),
        tx.meta = some m → m.preTokenBalances = some pres →
          m.postTokenBalances = some posts →
          extractEvents tx =
            (pres.zip posts).map (fun pq => (pq.1.uiAmount, pq.2.uiAmount)))
    ∧ detect_liquidity_removal [removalEv1, removalEv2] (1 / 10) = true := by
  constructor
  · intro tx m pres posts hm hpre hpost
    simp [extractEvents, hm, hpre, hpost]
  · simp [detect_liquidity_removal, removalEv1, removalEv2, extractEvents]
    norm_num

/-- Witness for C10: the positional-alignment equation evaluated on the
first test record. -/
theorem removal_accepts_transaction_records_witness :
    extractEvents removalEv1 =
      (([⟨none, 1000⟩] : List TokenBal).zip ([⟨none, 0⟩] : List TokenBal)).map
        (fun pq => (pq.1.uiAmount, pq.2.uiAmount)) :=
  removal_accepts_transaction_records.1 removalEv1
    ⟨none, none, none, none, some [⟨none, 1000⟩], some [⟨none, 0⟩]⟩
    [⟨none, 1000⟩] [⟨none, 0⟩] rfl rfl rfl

/-- C3: for every trade amount and every pool state with positive reserves
and supply, `calculate_liquidity_impact` returns a value in `[0, 1]`
(clamped); it fails with `InvalidPoolStateError` whenever any reserve or
the supply is non-positive, in particular when `token_a_reserve = 0`. -/
theorem impact_in_unit_interval_and_guard (t : ℚ) (p : PoolState) :
    (0 < p.token_a_reserve → 0 < p.token_b_reserve → 0 < p.pool_token_supply →
      ∃ v, calculate_liquidity_impact t p = .ok v ∧ 0 ≤ v ∧ v ≤ 1)
    ∧ ((p.token_a_reserve ≤ 0 ∨ p.token_b_reserve ≤ 0 ∨ p.pool_token_supply ≤ 0) →
      calculate_liquidity_impact t p = .error .invalidPoolState)
    ∧ (p.token_a_reserve = 0 →
      calculate_liquidity_impact t p = .error .invalidPoolState) := by
  refine ⟨fun ha hb hs => ⟨impactValue t p, ?_, ?_, ?_⟩, fun h => ?_, fun h => ?_⟩
  · rw [calculate_liquidity_impact, if_neg]
    push_neg
    exact ⟨ha, hb, hs⟩
  · unfold impactValue
    exact le_min zero_le_one (le_max_left 0 _)
  · unfold impactValue
    exact min_le_left _ _
  · rw [calculate_liquidity_impact, if_pos h]
  · rw [calculate_liquidity_impact, if_pos (Or.inl (le_of_eq h))]

/-- Witness for C3: the valid-pool branch at the unit test's input. -/
theorem impact_in_unit_interval_and_guard_witness :
    ∃ v, calculate_liquidity_impact 100000 testPool = .ok v ∧ 0 ≤ v ∧ v ≤ 1 :=
  (impact_in_unit_interval_and_guard 100000 testPool).1
    (by norm_num [testPool]) (by norm_num [testPool]) (by norm_num [testPool])

/-- C4: for a fixed valid pool state, `calculate_liquidity_impact` is
monotonic non-decreasing in the trade amount: for trade amounts
`0 ≤ t1 ≤ t2` it succeeds on both and the first impact is at most the
second. -/
theorem impact_monotone (p : PoolState) (t1 t2 : ℚ)
    (ha : 0 < p.token_a_reserve) (hb : 0 < p.token_b_reserve)
    (hs : 0 < p.pool_token_supply) (h0 : 0 ≤ t1) (h12 : t1 ≤ t2) :
    ∃ v1 v2, calculate_liquidity_impact t1 p = .ok v1 ∧
      calculate_liquidity_impact t2 p = .ok v2 ∧ v1 ≤ v2 := by
  have hvalid : ¬(p.token_a_reserve ≤ 0 ∨ p.token_b_reserve ≤ 0 ∨
      p.pool_token_supply ≤ 0) := by
    push_neg
    exact ⟨ha, hb, hs⟩
  refine ⟨impactValue t1 p, impactValue t2 p, ?_, ?_, ?_⟩
  · rw [calculate_liquidity_impact, if_neg hvalid]
  · rw [calculate_liquidity_impact, if_neg hvalid]
  · unfold impactValue
    have h1 : 0 < p.token_a_reserve + t1 := by linarith
    have hq : p.token_a_reserve / (p.token_a_reserve + t2) ≤
        p.token_a_reserve / (p.token_a_reserve + t1) :=
      div_le_div_of_nonneg_left (le_of_lt ha) h1 (by linarith)
    have hq0 : 0 ≤ p.token_a_reserve / (p.token_a_reserve + t2) :=
      div_nonneg (le_of_lt ha) (by linarith)
    have hsq := pow_le_pow_left₀ hq0 hq 2
    exact min_le_min (le_refl 1) (max_le_max (le_refl 0) (by linarith))

/-- Witness for C4: monotonicity at the unit test's pool for trade
amounts `0 ≤ 100000`. -/
theorem impact_monotone_witness :
    ∃ v1 v2, calculate_liquidity_impact 0 testPool = .ok v1 ∧
      calculate_liquidity_impact 100000 testPool = .ok v2 ∧ v1 ≤ v2 :=
  impact_monotone testPool 0 100000 (by norm_num [testPool])
    (by norm_num [testPool]) (by norm_num [testPool]) (by norm_num) (by norm_num)

theorem mem_nodesOf_left {edges : List (String × String)} {x y : String}
    (h : EdgeStep edges x y) : x ∈ nodesOf edges :=
  List.mem_flatMap.2 ⟨(x, y), h, by simp⟩

theorem mem_nodesOf_right {edges : List (String × String)} {x y : String}
    (h : EdgeStep edges x y) : y ∈ nodesOf edges :=
  List.mem_flatMap.2 ⟨(x, y), h, by simp⟩

theorem chain'_mem_nodesOf {edges : List (String × String)} :
    ∀ (p : List String), List.Chain' (EdgeStep edges) p → 2 ≤ p.length →
      ∀ v ∈ p, v ∈ nodesOf edges := by
  intro p
  induction p with
  | nil => intro _ h; simp at h
  | cons a rest ih =>
    intro hch hlen v hv
    cases rest with
    | nil => simp at hlen
    | cons b t =>
      rw [List.chain'_cons] at hch
      rcases List.mem_cons.1 hv with rfl | hv
      · exact mem_nodesOf_left hch.1
      · cases t with
        | nil =>
          have hb : v = b := by simpa using hv
          exact hb ▸ mem_nodesOf_right hch.1
        | cons c t =>
          exact ih hch.2 (by simp) v hv

theorem not_nodup_split {α : Type} :
    ∀ (l : List α), ¬ l.Nodup →
      ∃ (l1 : List α) (x : α) (l2 l3 : List α), l = l1 ++ x :: (l2 ++ x :: l3) := by
  intro l
  induction l with
  | nil => intro h; exact absurd List.nodup_nil h
  | cons a t ih =>
    intro h
    by_cases ha : a ∈ t
    · obtain ⟨s, u, rfl⟩ := List.append_of_mem ha
      exact ⟨[], a, s, u, by simp⟩
    · have ht : ¬ t.Nodup := fun hn => h (List.nodup_cons.2 ⟨ha, hn⟩)
      obtain ⟨l1, x, l2, l3, rfl⟩ := ih ht
      exact ⟨a :: l1, x, l2, l3, by simp⟩

theorem exists_nodup_chain' {edges : List (String × String)} :
    ∀ (n : Nat) (p : List String), p.length ≤ n → List.Chain' (EdgeStep edges) p →
      ∃ q : List String, List.Chain' (EdgeStep edges) q ∧ q.head? = p.head? ∧
        q.getLast? = p.getLast? ∧ q.Nodup := by
  intro n
  induction n with
  | zero =>
    intro p hlen _
    have hp : p = [] := List.length_eq_zero.1 (Nat.le_zero.1 hlen)
    subst hp
    exact ⟨[], List.chain'_nil, rfl, rfl, List.nodup_nil⟩
  | succ n ih =>
    intro p hlen hch
    by_cases hnd : p.Nodup
    · exact ⟨p, hch, rfl, rfl, hnd⟩
    · obtain ⟨l1, x, l2, l3, rfl⟩ := not_nodup_split p hnd
      have h1 := List.chain'_split.1 hch
      have h2 : List.Chain' (EdgeStep edges) ((x :: l2) ++ x :: l3) := by
        simpa using h1.2
      have h3 := List.chain'_split.1 h2
      have hch' : List.Chain' (EdgeStep edges) (l1 ++ x :: l3) :=
        List.chain'_split.2 ⟨h1.1, h3.2⟩
      have hlen' : (l1 ++ x :: l3).length ≤ n := by
        simp only [List.length_append, List.length_cons] at hlen ⊢
        omega
      obtain ⟨q, hq, hh, hl, hnd'⟩ := ih _ hlen' hch'
      refine ⟨q, hq, ?_, ?_, hnd'⟩
      · rw [hh]
        cases l1 with
        | nil => simp
        | cons c l1 => simp
      · rw [hl, List.getLast?_append_cons, List.getLast?_append_cons,
          show x :: (l2 ++ x :: l3) = (x :: l2) ++ x :: l3 by simp,
          List.getLast?_append_cons]

theorem reachN_refl {edges : List (String × String)} (n : Nat) (x : String) :
    reachN edges n x x = true := by
  cases n <;> simp [reachN]

theorem reachN_of_chain' {edges : List (String × String)} :
    ∀ (p : List String) (x y : String) (n : Nat), List.Chain' (EdgeStep edges) p →
      p.head? = some x → p.getLast? = some y → p.length ≤ n + 1 →
      reachN edges n x y = true := by
  intro p
  induction p with
  | nil => intro x y n _ hh _ _; simp at hh
  | cons a t ih =>
    intro x y n hch hh hl hlen
    have hx : a = x := by simpa using hh
    subst hx
    cases t with
    | nil =>
      have hy : a = y := by simpa using hl
      subst hy
      exact reachN_refl n a
    | cons b t =>
      rw [List.chain'_cons] at hch
      have hl' : (b :: t).getLast? = some y := by
        rw [← List.getLast?_cons_cons]
        exact hl
      cases n with
      | zero => simp at hlen
      | succ m =>
        have hrest : reachN edges m b y = true := by
          refine ih b y m hch.2 rfl hl' ?_
          simp only [List.length_cons] at hlen ⊢
          omega
        show reachN edges (m + 1) a y = true
        rw [reachN, Bool.or_eq_true]
        right
        refine List.any_eq_true.2 ⟨(a, b), hch.1, ?_⟩
        simp [hrest]

theorem reaches_of_reachN {edges : List (String × String)} :
    ∀ (n : Nat) (x y : String), reachN edges n x y = true → Reaches edges x y := by
  intro n
  induction n with
  | zero =>
    intro x y h
    have hxy : x = y := by simpa [reachN] using h
    subst hxy
    exact ⟨[x], List.chain'_singleton x, rfl, rfl⟩
  | succ n ih =>
    intro x y h
    rw [reachN, Bool.or_eq_true] at h
    rcases h with h | h
    · have hxy : x = y := by simpa using h
      subst hxy
      exact ⟨[x], List.chain'_singleton x, rfl, rfl⟩
    · obtain ⟨e, he, hcond⟩ := List.any_eq_true.1 h
      rw [Bool.and_eq_true, beq_iff_eq] at hcond
      obtain ⟨hex, hr⟩ := hcond
      obtain ⟨p, hch, hh, hl⟩ := ih e.2 y hr
      refine ⟨x :: p, ?_, rfl, ?_⟩
      · rw [List.chain'_cons']
        refine ⟨?_, hch⟩
        intro z hz
        rw [hh] at hz
        have hz2 : e.2 = z := by simpa using hz
        show (x, z) ∈ edges
        rw [← hz2, ← hex]
        exact he
      · cases p with
        | nil => simp at hh
        | cons c t =>
          rw [List.getLast?_cons_cons]
          exact hl

theorem nodup_chain'_length_le {edges : List (String × String)} (q : List String)
    (hch : List.Chain' (EdgeStep edges) q) (hnd : q.Nodup) (h2 : 2 ≤ q.length) :
    q.length ≤ (nodesOf edges).length := by
  have hsub : ∀ v ∈ q, v ∈ nodesOf edges := chain'_mem_nodesOf q hch h2
  calc q.length = q.toFinset.card := (List.toFinset_card_of_nodup hnd).symm
    _ ≤ (nodesOf edges).toFinset.card := by
        refine Finset.card_le_card ?_
        intro v hv
        rw [List.mem_toFinset] at hv ⊢
        exact hsub v hv
    _ ≤ (nodesOf edges).length := List.toFinset_card_le _

theorem reaches_iff_reachB {edges : List (String × String)} (x y : String) :
    Reaches edges x y ↔ reachB edges x y = true := by
  constructor
  · rintro ⟨p, hch, hh, hl⟩
    obtain ⟨q, hq, hh', hl', hnd⟩ := exists_nodup_chain' p.length p (le_refl _) hch
    rw [hh] at hh'
    rw [hl] at hl'
    unfold reachB
    cases q with
    | nil => simp at hh'
    | cons a t =>
      cases t with
      | nil =>
        have hax : a = x := by simpa using hh'
        have hay : a = y := by simpa using hl'
        subst hax
        rw [← hay]
        exact reachN_refl _ a
      | cons b t =>
        have hlen : (a :: b :: t).length ≤ (nodesOf edges).length :=
          nodup_chain'_length_le _ hq hnd (by simp)
        exact reachN_of_chain' _ x y _ hq hh' hl' (le_trans hlen (Nat.le_succ _))
  · intro h
    exact reaches_of_reachN _ x y h

theorem hasCycle_iff {edges : List (String × String)} :
    hasCycle edges = true ↔ HasCycleGe2 edges := by
  constructor
  · intro h
    obtain ⟨e, he, hcond⟩ := List.any_eq_true.1 h
    rw [Bool.and_eq_true, decide_eq_true_eq] at hcond
    obtain ⟨hne, hr⟩ := hcond
    obtain ⟨p, hch, hh, hl⟩ := (reaches_iff_reachB e.2 e.1).2 hr
    obtain ⟨q, hq, hh', hl', hnd⟩ := exists_nodup_chain' p.length p (le_refl _) hch
    rw [hh] at hh'
    rw [hl] at hl'
    obtain ⟨q', rfl⟩ : ∃ q', q = q' ++ [e.1] :=
      ⟨q.dropLast, (List.dropLast_append_getLast? e.1 hl').symm⟩
    have hq'ne : q' ≠ [] := by
      intro h0
      rw [h0] at hh'
      have : e.1 = e.2 := by simpa using hh'
      exact hne this
    have hhead : q'.head? = some e.2 := by
      rw [List.head?_append_of_ne_nil _ hq'ne] at hh'
      exact hh'
    refine ⟨e.1, q', hq'ne, ?_, ?_⟩
    · rw [List.nodup_append] at hnd
      rw [List.nodup_cons]
      refine ⟨?_, hnd.1⟩
      intro hmem
      exact hnd.2.2 hmem (by simp)
    · rw [List.chain'_cons']
      constructor
      · intro z hz
        rw [List.head?_append_of_ne_nil _ hq'ne, hhead] at hz
        have hz2 : e.2 = z := by simpa using hz
        show (e.1, z) ∈ edges
        rw [← hz2]
        exact he
      · exact hq
  · rintro ⟨a, l, hl0, hnd, hch⟩
    cases l with
    | nil => exact absurd rfl hl0
    | cons b t =>
      rw [List.cons_append, List.chain'_cons] at hch
      refine List.any_eq_true.2 ⟨(a, b), hch.1, ?_⟩
      rw [Bool.and_eq_true, decide_eq_true_eq]
      constructor
      · show a ≠ b
        intro hab
        have hna : a ∉ b :: t := (List.nodup_cons.1 hnd).1
        exact hna (by rw [hab]; exact List.mem_cons_self b t)
      · refine (reaches_iff_reachB b a).1 ⟨b :: (t ++ [a]), hch.2, rfl, ?_⟩
        rw [← List.cons_append]
        exact List.getLast?_concat _

theorem patterns_eq (cfg : AnalyzerConfig) (window : List Tx) (tx : Tx) :
    (analyze_transaction cfg window tx).1.detected_patterns =
      (if cfg.washCount < washOccurrences window tx then ["wash-trading"] else []) ++
        (if (cfg.cycleEnabled && hasCycle (innerEdges tx)) = true then ["cyclic"] else []) := by
  simp only [analyze_transaction, decide_eq_true_eq]

theorem mem_patterns_cyclic (cfg : AnalyzerConfig) (window : List Tx) (tx : Tx) :
    ("cyclic" ∈ (analyze_transaction cfg window tx).1.detected_patterns) ↔
      (cfg.cycleEnabled && hasCycle (innerEdges tx)) = true := by
  rw [patterns_eq]
  by_cases hw : cfg.washCount < washOccurrences window tx <;>
    by_cases hc : (cfg.cycleEnabled && hasCycle (innerEdges tx)) = true <;>
      simp [hw, hc]

theorem mem_patterns_wash (cfg : AnalyzerConfig) (window : List Tx) (tx : Tx) :
    ("wash-trading" ∈ (analyze_transaction cfg window tx).1.detected_patterns) ↔
      cfg.washCount < washOccurrences window tx := by
  rw [patterns_eq]
  by_cases hw : cfg.washCount < washOccurrences window tx <;>
    by_cases hc : (cfg.cycleEnabled && hasCycle (innerEdges tx)) = true <;>
      simp [hw, hc]

/-- C2: with cycle detection enabled, `analyze_transaction` includes
"cyclic" in `detected_patterns` exactly when the transaction-local
account-flow graph (edges from the first to the second account of each
inner instruction, in declaration order) contains a cycle of length at
least two; in particular the edges `A→B, B→C, C→A` yield "cyclic" and the
edges `A→B, B→C` alone do not. -/
theorem analyzer_cyclic_iff (cfg : AnalyzerConfig) (window : List Tx) (tx : Tx)
    (hc : cfg.cycleEnabled = true) :
    ("cyclic" ∈ (analyze_transaction cfg window tx).1.detected_patterns ↔
        HasCycleGe2 (innerEdges tx))
    ∧ "cyclic" ∈ (analyze_transaction cfg window cycleTx).1.detected_patterns
    ∧ "cyclic" ∉ (analyze_transaction cfg window chainTx).1.detected_patterns := by
  have key : ∀ t : Tx,
      ("cyclic" ∈ (analyze_transaction cfg window t).1.detected_patterns ↔
        hasCycle (innerEdges t) = true) := by
    intro t
    rw [mem_patterns_cyclic, hc, Bool.true_and]
  refine ⟨?_, ?_, ?_⟩
  · rw [key tx]
    exact hasCycle_iff
  · rw [key cycleTx]
    decide
  · rw [key chainTx]
    decide

/-- Witness for C2: the cycle of the unit test, analyzed under a concrete
configuration with cycle detection enabled. -/
theorem analyzer_cyclic_iff_witness :
    "cyclic" ∈
      (analyze_transaction ⟨5, 3, 1 / 2, 1 / 2, true⟩ [] cycleTx).1.detected_patterns :=
  (analyzer_cyclic_iff ⟨5, 3, 1 / 2, 1 / 2, true⟩ [] cycleTx rfl).2.1

theorem countP_self_replicate {α : Type} [DecidableEq α] (a : α) :
    ∀ n : Nat, (List.replicate n a).countP (fun t => decide (t = a)) = n := by
  intro n
  induction n with
  | zero => simp
  | succ n ih =>
    rw [List.replicate_succ, List.countP_cons]
    simp [ih]

theorem windowIter_replicate (cfg : AnalyzerConfig) (tx : Tx) :
    ∀ k : Nat, k ≤ cfg.washWindow → windowIter cfg tx k = List.replicate k tx := by
  intro k
  induction k with
  | zero => intro _; rfl
  | succ n ih =>
    intro h
    show (analyze_transaction cfg (windowIter cfg tx n) tx).2 = _
    rw [ih (Nat.le_of_succ_le h)]
    show (tx :: List.replicate n tx).take cfg.washWindow = List.replicate (n + 1) tx
    rw [← List.replicate_succ]
    exact List.take_of_length_le (by simpa using h)

theorem washOccurrences_replicate (tx : Tx) (n : Nat) :
    washOccurrences (List.replicate n tx) tx = n + 1 := by
  unfold washOccurrences
  rw [← List.replicate_succ]
  exact countP_self_replicate tx (n + 1)

theorem risk_score_eq (cfg : AnalyzerConfig) (window : List Tx) (tx : Tx) :
    (analyze_transaction cfg window tx).1.risk_score =
      min 1 (max 0 (cfg.washWeight *
          min 1 ((washOccurrences window tx : ℚ) / ((cfg.washCount : ℚ) + 1)) +
        cfg.cycleWeight *
          (if (cfg.cycleEnabled && hasCycle (innerEdges tx)) = true then 1 else 0))) :=
  rfl

theorem risk_clamp_strict (w cw cy s1 : ℚ) (hw : 0 < w) (hcw : 0 ≤ cw)
    (hcy0 : 0 ≤ cy) (hcy1 : cy ≤ 1) (hsum : w + cw ≤ 1) (hs10 : 0 ≤ s1)
    (hs11 : s1 < 1) :
    min 1 (max 0 (w * s1 + cw * cy)) < min 1 (max 0 (w * 1 + cw * cy)) := by
  have hz0 : 0 ≤ cw * cy := mul_nonneg hcw hcy0
  have hzcw : cw * cy ≤ cw := mul_le_of_le_one_right hcw hcy1
  have hA0 : 0 ≤ w * s1 + cw * cy := add_nonneg (mul_nonneg hw.le hs10) hz0
  have hB1 : w * 1 + cw * cy ≤ 1 := by nlinarith
  have hAB : w * s1 + cw * cy < w * 1 + cw * cy := by
    have hm := mul_lt_mul_of_pos_left hs11 hw
    linarith
  rw [max_eq_right hA0, max_eq_right (le_trans hA0 hAB.le),
    min_eq_right (le_trans hAB.le hB1), min_eq_right hB1]
  exact hAB

/-- C5: when the same structurally identical transaction recurs five times
within the configured window (window capacity at least four, repetition
threshold between one and four, positive wash weight, weights summing to
at most one), the fifth analysis includes "wash-trading" in
`detected_patterns` and its risk score strictly exceeds that of a single
occurrence of the same transaction. -/
theorem wash_trading_recurrence (cfg : AnalyzerConfig) (tx : Tx)
    (hW : 4 ≤ cfg.washWindow) (hc1 : 1 ≤ cfg.washCount) (hc4 : cfg.washCount ≤ 4)
    (hw : 0 < cfg.washWeight) (hcw : 0 ≤ cfg.cycleWeight)
    (hsum : cfg.washWeight + cfg.cycleWeight ≤ 1) :
    "wash-trading" ∈
        (analyze_transaction cfg (windowIter cfg tx 4) tx).1.detected_patterns
    ∧ (analyze_transaction cfg [] tx).1.risk_score <
        (analyze_transaction cfg (windowIter cfg tx 4) tx).1.risk_score := by
  have hwin : windowIter cfg tx 4 = List.replicate 4 tx :=
    windowIter_replicate cfg tx 4 hW
  have hocc5 : washOccurrences (windowIter cfg tx 4) tx = 5 := by
    rw [hwin]
    exact washOccurrences_replicate tx 4
  have hocc1 : washOccurrences [] tx = 1 := by
    simp [washOccurrences]
  have hcpos : (0 : ℚ) < (cfg.washCount : ℚ) + 1 := by positivity
  have hcge1 : (1 : ℚ) ≤ (cfg.washCount : ℚ) := by exact_mod_cast hc1
  have hcle4 : (cfg.washCount : ℚ) ≤ 4 := by exact_mod_cast hc4
  constructor
  · rw [mem_patterns_wash, hocc5]
    omega
  · rw [risk_score_eq, risk_score_eq, hocc5, hocc1]
    have h5 : min 1 ((5 : ℕ) / ((cfg.washCount : ℚ) + 1) : ℚ) = 1 := by
      refine min_eq_left ?_
      rw [le_div_iff₀ hcpos]
      push_cast
      linarith
    rw [h5]
    refine risk_clamp_strict _ _ _ _ hw hcw ?_ ?_ hsum ?_ ?_
    · split <;> norm_num
    · split <;> norm_num
    · have h10 : (0 : ℚ) ≤ (1 : ℕ) / ((cfg.washCount : ℚ) + 1) := by positivity
      exact le_min zero_le_one h10
    · refine min_lt_iff.2 (Or.inr ?_)
      rw [div_lt_one hcpos]
      push_cast
      linarith

/-- Witness for C5: the five-fold recurrence under a concrete
configuration and a concrete transaction. -/
theorem wash_trading_recurrence_witness :
    "wash-trading" ∈
        (analyze_transaction ⟨5, 3, 1 / 2, 1 / 4, true⟩
          (windowIter ⟨5, 3, 1 / 2, 1 / 4, true⟩ removalEv1 4)
          removalEv1).1.detected_patterns
    ∧ (analyze_transaction ⟨5, 3, 1 / 2, 1 / 4, true⟩ [] removalEv1).1.risk_score <
        (analyze_transaction ⟨5, 3, 1 / 2, 1 / 4, true⟩
          (windowIter ⟨5, 3, 1 / 2, 1 / 4, true⟩ removalEv1 4)
          removalEv1).1.risk_score :=
  wash_trading_recurrence ⟨5, 3, 1 / 2, 1 / 4, true⟩ removalEv1 (by norm_num)
    (by norm_num) (by norm_num) (by norm_num) (by norm_num) (by norm_num)

/-- C6: for every input transaction, including malformed ones with missing
fields, `analyze_transaction` totally returns a result whose risk score is
in `[0, 1]` and whose detected patterns form a duplicate-free subset of
the pattern labels; a missing `meta` or missing `innerInstructions` field
is absent signal for the cycle detector. -/
theorem analyze_transaction_total (cfg : AnalyzerConfig) (window : List Tx) (tx : Tx) :
    (0 ≤ (analyze_transaction cfg window tx).1.risk_score ∧
        (analyze_transaction cfg window tx).1.risk_score ≤ 1)
    ∧ (analyze_transaction cfg window tx).1.detected_patterns.Nodup
    ∧ (∀ s ∈ (analyze_transaction cfg window tx).1.detected_patterns,
        s = "wash-trading" ∨ s = "cyclic")
    ∧ (tx.meta = none →
        "cyclic" ∉ (analyze_transaction cfg window tx).1.detected_patterns)
    ∧ (∀ m : Meta, tx.meta = some m → m.innerInstructions = none →
        "cyclic" ∉ (analyze_transaction cfg window tx).1.detected_patterns) := by
  refine ⟨⟨?_, ?_⟩, ?_, ?_, ?_, ?_⟩
  · rw [risk_score_eq]
    exact le_min zero_le_one (le_max_left 0 _)
  · rw [risk_score_eq]
    exact min_le_left _ _
  · rw [patterns_eq]
    by_cases hw : cfg.washCount < washOccurrences window tx <;>
      by_cases hc : (cfg.cycleEnabled && hasCycle (innerEdges tx)) = true <;>
        simp [hw, hc]
  · rw [patterns_eq]
    intro s hs
    by_cases hw : cfg.washCount < washOccurrences window tx <;>
      by_cases hc : (cfg.cycleEnabled && hasCycle (innerEdges tx)) = true <;>
        simp [hw, hc] at hs <;> tauto
  · intro hm
    rw [mem_patterns_cyclic]
    have hedges : innerEdges tx = [] := by
      unfold innerEdges
      rw [hm]
    rw [hedges]
    simp [hasCycle]
  · intro m hm hi
    rw [mem_patterns_cyclic]
    have hedges : innerEdges tx = [] := by
      unfold innerEdges
      rw [hm]
      show (m.innerInstructions.getD []).flatMap _ = []
      rw [hi]
      rfl
    rw [hedges]
    simp [hasCycle]

/-- Witness for C6: the guarantees applied to a transaction with no fields
at all (fully malformed input). -/
theorem analyze_transaction_total_witness :
    (0 ≤ (analyze_transaction ⟨5, 3, 1 / 2, 1 / 2, true⟩ [] ⟨none, none, none⟩).1.risk_score ∧
        (analyze_transaction ⟨5, 3, 1 / 2, 1 / 2, true⟩ [] ⟨none, none, none⟩).1.risk_score ≤ 1)
    ∧ (analyze_transaction ⟨5, 3, 1 / 2, 1 / 2, true⟩ [] ⟨none, none, none⟩).1.detected_patterns.Nodup
    ∧ (∀ s ∈ (analyze_transaction ⟨5, 3, 1 / 2, 1 / 2, true⟩ [] ⟨none, none, none⟩).1.detected_patterns,
        s = "wash-trading" ∨ s = "cyclic")
    ∧ ((⟨none, none, none⟩ : Tx).meta = none →
        "cyclic" ∉ (analyze_transaction ⟨5, 3, 1 / 2, 1 / 2, true⟩ [] ⟨none, none, none⟩).1.detected_patterns)
    ∧ (∀ m : Meta, (⟨none, none, none⟩ : Tx).meta = some m → m.innerInstructions = none →
        "cyclic" ∉ (analyze_transaction ⟨5, 3, 1 / 2, 1 / 2, true⟩ [] ⟨none, none, none⟩).1.detected_patterns) :=
  analyze_transaction_total ⟨5, 3, 1 / 2, 1 / 2, true⟩ [] ⟨none, none, none⟩

theorem balanceConsistent_iff (tol : ℚ) (tx : Tx) :
    balanceConsistent tol tx = true ↔ FeeConsistent tol tx := by
  unfold balanceConsistent FeeConsistent
  cases hmeta : tx.meta with
  | none => simp
  | some m =>
    cases hfee : m.fee with
    | none => simp [hfee]
    | some fee =>
      cases hpre : m.preBalances with
      | none => simp [hfee, hpre]
      | some pre =>
        cases hpost : m.postBalances with
        | none => simp [hfee, hpre, hpost]
        | some post =>
          simp [hfee, hpre, hpost, Bool.and_eq_true, decide_eq_true_eq]

/-- C7: `filter_mempool_transactions` retains exactly the transactions
whose sum of balance changes equals the declared fee within the
tolerance; any transaction with missing `meta`, missing `meta.fee` or
mismatched pre/post balance array lengths is dropped (and the function is
total, hence never raises). -/
theorem filter_mempool_consistent (tol : ℚ) (txs : List Tx) :
    (∀ tx, tx ∈ filter_mempool_transactions tol txs ↔
        tx ∈ txs ∧ FeeConsistent tol tx)
    ∧ (∀ tx, (tx.meta = none ∨ (∃ m : Meta, tx.meta = some m ∧ m.fee = none) ∨
        (∃ (m : Meta) (pre post : List Int), tx.meta = some m ∧
          m.preBalances = some pre ∧ m.postBalances = some post ∧
          pre.length ≠ post.length)) →
        tx ∉ filter_mempool_transactions tol txs) := by
  constructor
  · intro tx
    rw [filter_mempool_transactions, List.mem_filter, balanceConsistent_iff]
  · intro tx hbad hmem
    rw [filter_mempool_transactions, List.mem_filter, balanceConsistent_iff] at hmem
    obtain ⟨m, fee, pre, post, hm, hfee, hpre, hpost, hlen, _⟩ := hmem.2
    rcases hbad with hnone | ⟨m', hm', hfee'⟩ | ⟨m', pre', post', hm', hpre', hpost', hlen'⟩
    · rw [hnone] at hm
      exact Option.noConfusion hm
    · rw [hm'] at hm
      injection hm with hmm
      rw [← hmm, hfee'] at hfee
      exact Option.noConfusion hfee
    · rw [hm'] at hm
      injection hm with hmm
      rw [← hmm, hpre'] at hpre
      rw [← hmm, hpost'] at hpost
      injection hpre with hpp
      injection hpost with hqq
      rw [← hpp, ← hqq] at hlen
      exact hlen' hlen

/-- Witness for C7: the first test transaction passes the filter under a
tolerance of 5000 (its net balance delta is 0 against a declared fee of
5000). -/
theorem filter_mempool_consistent_witness :
    mempoolTx1 ∈ filter_mempool_transactions 5000 [mempoolTx1, mempoolTx2] :=
  ((filter_mempool_consistent 5000 [mempoolTx1, mempoolTx2]).1 mempoolTx1).2
    ⟨List.mem_cons_self mempoolTx1 [mempoolTx2],
      ⟨some 5000, some [1000000, 2000000], some [990000, 2010000], none, none, none⟩,
      5000, [1000000, 2000000], [990000, 2010000], rfl, rfl, rfl, rfl, rfl,
      by norm_num⟩

/-- C8: with the cache empty at the requested height and the height not a
duplicate, `process_new_block` returns a Block whose `block_height` equals
the requested height, whose transactions are the raw transaction list and
whose `block_time` is the raw timestamp; it fails with `IngestionError`
when the ledger client errors or the raw block misses its transactions
field. -/
theorem process_new_block_spec (client : Nat → Except String RawBlock)
    (st : ListenerState) (h : Nat) (raw : RawBlock)
    (hcache : st.cache.lookup h = none)
    (hdup : isDuplicateHeight st h = false) :
    (∀ txs : List Tx, client h = .ok raw → raw.transactions = some txs →
        (process_new_block client st h).1 = .ok (some ⟨h, txs, raw.blockTime⟩))
    ∧ (∀ e : String, client h = .error e →
        (process_new_block client st h).1 = .error .clientError)
    ∧ (client h = .ok raw → raw.transactions = none →
        (process_new_block client st h).1 = .error .malformedBlock) := by
  refine ⟨?_, ?_, ?_⟩
  · intro txs hclient htxs
    simp [process_new_block, hcache, hdup, hclient, htxs]
  · intro e hclient
    simp [process_new_block, hcache, hdup, hclient]
  · intro hclient htxs
    simp [process_new_block, hcache, hdup, hclient, htxs]

/-- Witness for C8: ingesting the unit test's mock block at height 12345
yields a Block with that height, one transaction and the raw timestamp. -/
theorem process_new_block_spec_witness :
    (process_new_block testClient initialState 12345).1 =
      .ok (some ⟨12345, [testBlockTx], testRawBlock.blockTime⟩) :=
  (process_new_block_spec testClient initialState 12345 testRawBlock rfl rfl).1
    [testBlockTx] rfl rfl

theorem lookup_of_processed {client : Nat → Except String RawBlock}
    {st : ListenerState} {h : Nat} {b : Block} {st' : ListenerState}
    (hp : process_new_block client st h = (.ok (some b), st')) :
    st'.cache.lookup h = some b := by
  unfold process_new_block at hp
  cases hc : st.cache.lookup h with
  | some b0 =>
    rw [hc] at hp
    simp only [Prod.mk.injEq, Except.ok.injEq, Option.some.injEq] at hp
    rw [← hp.2, hc, hp.1]
  | none =>
    rw [hc] at hp
    cases hd : isDuplicateHeight st h with
    | true => simp [hd] at hp
    | false =>
      simp only [hd, Bool.false_eq_true, if_false] at hp
      cases hcl : client h with
      | error e => simp only [hcl] at hp; simp at hp
      | ok raw =>
        simp only [hcl] at hp
        cases htx : raw.transactions with
        | none => simp only [htx] at hp; simp at hp
        | some txs =>
          simp only [htx] at hp
          simp only [Prod.mk.injEq, Except.ok.injEq, Option.some.injEq] at hp
          rw [← hp.2]
          show List.lookup h ((h, (⟨h, txs, raw.blockTime⟩ : Block)) :: st.cache) = some b
          simp [List.lookup, hp.1]

/-- C9: `process_new_block` is idempotent: a second call with the same
height returns the identical Block with the state (in particular the
fetch log) unchanged, so no second fetch is performed; and a height at
most the last-accepted height that was never constructed is discarded as
a duplicate rather than reprocessed. -/
theorem process_new_block_idempotent (client : Nat → Except String RawBlock)
    (st : ListenerState) (h : Nat) :
    (∀ (b : Block) (st' : ListenerState),
        process_new_block client st h = (.ok (some b), st') →
        process_new_block client st' h = (.ok (some b), st'))
    ∧ (∀ lh : Nat, st.lastHeight = some lh → h ≤ lh → st.cache.lookup h = none →
        process_new_block client st h = (.ok none, st)) := by
  constructor
  · intro b st' hp
    have hl := lookup_of_processed hp
    simp [process_new_block, hl]
  · intro lh hlh hle hcache
    have hd : isDuplicateHeight st h = true := by
      unfold isDuplicateHeight
      rw [hlh]
      simpa using hle
    simp [process_new_block, hcache, hd]

/-- Witness for C9: re-ingesting height 12345 after the first successful
ingestion returns the same Block and leaves the state (and its fetch log)
unchanged. -/
theorem process_new_block_idempotent_witness :
    process_new_block testClient ⟨some 12345, [(12345, testBlock)], [12345]⟩ 12345 =
      (.ok (some testBlock), ⟨some 12345, [(12345, testBlock)], [12345]⟩) :=
  (process_new_block_idempotent testClient initialState 12345).1 testBlock
    ⟨some 12345, [(12345, testBlock)], [12345]⟩ rfl

end CADE
